import Mathlib

/-!
Verification of the hoard pile persistence engine (petrs/proofmarshal).

Shallow embedding of the Rust sources:
  - src/hoard/src/pile/mod.rs      (TryPile, get_blob_impl, try_get_tip, VecDumper, encode_dirty)
  - src/hoard/src/impls/scalar.rs  (bool and integer blob validation)
  - src/hoard/src/impls/array.rs   (fixed array blob validation and encoding)
  - src/proofmarshal-collections/src/tree/height.rs (Height, NonZeroHeight)

Bytes are modelled as natural numbers (the byte ranges relevant to the
theorems never exceed 255); machine usize arithmetic never overflows on the
paths modelled (the source itself notes the maximum offset is a quarter of
usize::MAX), so Nat addition is faithful.
-/

namespace Hoard

/-- A byte of a pile. -/
abbrev Byte := Nat

/-- Rust slice indexing semantics: s.get(start..stop) returns Some of the
subslice exactly when start <= stop and stop <= s.len(). -/
def sliceGet (s : List Byte) (start stop : Nat) : Option (List Byte) :=
  if start ≤ stop ∧ stop ≤ s.length then some ((s.drop start).take (stop - start)) else none

/-- The kind field of pile::error::Error, as produced in pile/mod.rs:
Offset (out of range), Metadata (try_layout failed), Value (blob failed its
type validation). The zone and pointer context attached by Error::new does
not affect which kind is produced and is omitted. -/
inductive ErrorKind where
  | offset
  | metadata
  | value
deriving DecidableEq

/-- A blob layout: persistent pointee types always have alignment 1, so the
layout is just a size in bytes. -/
structure BlobLayout where
  size : Nat
deriving DecidableEq

/-- get_blob_impl from pile/mod.rs lines 251-277: compute the layout from the
pointer metadata (a failure is an ErrorKind.Metadata error), then range-check
the slice pile[start .. start + size]; out of range is an ErrorKind.Offset
error, otherwise the subslice is returned as the blob. The layout computation
T::try_layout(ptr.metadata) is abstracted as an Option BlobLayout argument. -/
def get_blob_impl (pile : List Byte) (offset : Nat) (layout : Option BlobLayout) :
    Except ErrorKind (List Byte) :=
  match layout with
  | none => .error .metadata
  | some l =>
    match sliceGet pile offset (offset + l.size) with
    | none => .error .offset
    | some slice => .ok slice

/-- A sized blob schema: the blob size of a type together with its
ValidateBlob::validate function (which on success also yields the decoded
value, mirroring ValidBlob::to_ref followed by assume_valid_ref). -/
structure BlobSchema (ε α : Type) where
  size : Nat
  validate : List Byte → Except ε α

/-- ValidateBlob for the unit type, from impls/scalar.rs impl_all_valid:
every (zero-length) blob is valid. Error type is the never type. -/
def unitSchema : BlobSchema Empty Unit := ⟨0, fun _ => .ok ()⟩

/-- ValidateBlob for u8, from impls/scalar.rs impl_all_valid: every 1-byte
blob is valid, decoding to the byte itself. The nil case cannot be reached
through get_blob_impl, which always yields exactly one byte here. -/
def u8Schema : BlobSchema Empty Byte := ⟨1, fun bs => .ok (bs.headD 0)⟩

/-- The error type of ValidateBlob for bool (impls/scalar.rs). -/
structure ValidateBoolError where
deriving DecidableEq

/-- ValidateBlob for bool, from impls/scalar.rs lines 36-46: blob[0] must be
0 or 1; anything else is a ValidateBoolError. The nil case mirrors the
out-of-bounds panic of blob[0] and cannot be reached through get_blob_impl
for a size-1 schema. -/
def bool_validate : List Byte → Except ValidateBoolError Bool
  | b :: _ => if b = 0 ∨ b = 1 then .ok (b = 1) else .error ⟨⟩
  | [] => .error ⟨⟩

/-- The blob schema of bool: one byte, validated by bool_validate. -/
def boolSchema : BlobSchema ValidateBoolError Bool := ⟨1, bool_validate⟩

/-- try_get_tip from pile/mod.rs lines 235-248 composed with try_get_impl
(lines 279-295): the tip offset is slice.len().saturating_sub(size_of T)
(Nat subtraction is saturating), the blob is fetched with get_blob_impl, and
the type validation error is surfaced as an ErrorKind.Value error. -/
def try_get_tip (sch : BlobSchema ε α) (pile : List Byte) : Except ErrorKind α :=
  let offset := pile.length - sch.size
  match get_blob_impl pile offset (some ⟨sch.size⟩) with
  | .error e => .error e
  | .ok bytes =>
    match sch.validate bytes with
    | .ok a => .ok a
    | .error _ => .error .value

/-- The error type of ValidateBlob for fixed arrays (impls/array.rs):
the index of the first failing element and that element's error. -/
structure ValidateArrayError (ε : Type) where
  idx : Nat
  err : ε
deriving DecidableEq

/-- The element loop of ValidateBlob for fixed arrays [T; N]
(impls/array.rs lines 24-36): the cursor field calls validate successive
size-byte chunks, mapping element errors through the closure that records
the running index i. The parameter n counts the remaining elements. -/
def validateArrayAux (sch : BlobSchema ε α) : Nat → Nat → List Byte →
    Except (ValidateArrayError ε) Unit
  | 0, _, _ => .ok ()
  | n + 1, i, bytes =>
    match sch.validate (bytes.take sch.size) with
    | .error e => .error ⟨i, e⟩
    | .ok _ => validateArrayAux sch n (i + 1) (bytes.drop sch.size)

/-- ValidateBlob for a fixed array [T; N]: walk the N elements in index
order starting at index 0. -/
def validateArray (sch : BlobSchema ε α) (N : Nat) (bytes : List Byte) :
    Except (ValidateArrayError ε) Unit :=
  validateArrayAux sch N 0 bytes

/-- The byte chunk holding element i of an array blob. -/
def elemBytes (sch : BlobSchema ε α) (bytes : List Byte) (i : Nat) : List Byte :=
  (bytes.drop (i * sch.size)).take sch.size

/-! ## The dumper (pile/mod.rs VecDumper) -/

/-- The state of a VecDumper over a pile: the length of the underlying pile
slice and the append buffer. The pile contents themselves never influence
save_blob, so only the length is kept. -/
structure DumperState where
  pileLen : Nat
  buf : List Byte
deriving DecidableEq

/-- VecDumper::save_blob from pile/mod.rs lines 664-683: the returned offset
is pile.len() + buf.len() computed before the write, the closure fills
exactly size bytes which are appended to the buffer. The closure and size
are modelled by the concrete byte list it writes. -/
def save_blob (st : DumperState) (blob : List Byte) : DumperState × Nat :=
  (⟨st.pileLen, st.buf ++ blob⟩, st.pileLen + st.buf.length)

/-- A sequence of save_blob calls, returning the final dumper state and the
offsets handed out call by call. -/
def runSaves (st : DumperState) : List (List Byte) → DumperState × List Nat
  | [] => (st, [])
  | b :: bs =>
    let r := save_blob st b
    let rest := runSaves r.1 bs
    (rest.1, r.2 :: rest.2)

/-! ## Offset serialization and the encode pipeline

The modules src/hoard/src/pile/offset.rs and offsetmut.rs, and the Encode
impls for OwnedPtr, are not among the provided sources; only their callers
and the test pile::test::trypile_alloc are. -/

/-- Little-endian byte serialization of a value in a given number of bytes. -/
def leBytes : Nat → Nat → List Byte
  | 0, _ => []
  | w + 1, v => v % 256 :: leBytes w (v / 256)

/-- Little-endian decoding of a byte list. -/
def decodeLE (bs : List Byte) : Nat :=
  bs.foldr (fun b acc => acc * 256 + b) 0

/-- Modelled from the spec: the persisted 64-bit form of a bare Offset
(pile/offset.rs and offsetmut.rs are missing from the sources). Spec section
6 reserves the low bit of the stored value as the OffsetMut discriminator
between bare offsets and dirty heap pointers. The polarity of that bit is
fixed by the in-repo test pile::test::trypile_alloc and by the literal
outputs of spec section 8 scenarios 4 and 5: blobs saved at offsets
0, 1, 2, ..., 54 are referenced by stored values 1, 3, 5, ..., 109, so a bare
offset is stored as (offset << 1) | 1 and the clear low bit marks heap
pointers. (The formula "stored value = offset << 1" in spec section 6
contradicts those pinned outputs; see the theorems below.) -/
def offsetStored (o : Nat) : Nat := 2 * o + 1

/-- The formula for the stored offset as literally written in spec section 6:
stored value = offset << 1 with low discriminator bit 0. Kept separately so
it can be compared against the behaviour pinned by the repository test. -/
def offsetStoredSpecFormula (o : Nat) : Nat := 2 * o

/-- The 8 stored bytes of a bare persistent offset. -/
def offsetBytes (o : Nat) : List Byte := leBytes 8 (offsetStored o)

/-- The shapes of values fed to encode_dirty in pile::test::trypile_alloc:
plain bytes, unit values, dirty owned pointers (fresh allocations), and
three-element fixed arrays. -/
inductive EncVal where
  | u8 (v : Byte)
  | unitV
  | ownedPtr (child : EncVal)
  | arr3 (a b c : EncVal)
deriving DecidableEq

/-- Encoder state mirroring Encode::State: unit for primitives, the offset
recorded by save_blob for an owned pointer whose child has been written, and
the three element states for an array. -/
inductive EncState where
  | unit
  | savedAt (o : Nat)
  | arr3St (a b c : EncState)
deriving DecidableEq

/-- Phase 2, encode_blob: the bytes of a node's own blob, given the offsets
recorded in its state. A u8 writes its byte (impls/scalar.rs), a unit writes
nothing, an owned pointer writes the 8 stored bytes of the offset its child
was saved at (modelled from the spec, sections 4.8 and 6: the pointer field
is the persisted offset; pinned by test trypile_alloc), and an array writes
its elements in index order (impls/array.rs lines 110-115). Mismatched
states cannot arise from encodePoll. -/
def encodeBlob : EncVal → EncState → List Byte
  | .u8 v, _ => [v]
  | .unitV, _ => []
  | .ownedPtr _, .savedAt o => offsetBytes o
  | .ownedPtr _, _ => []
  | .arr3 a b c, .arr3St sa sb sc => encodeBlob a sa ++ encodeBlob b sb ++ encodeBlob c sc
  | .arr3 _ _ _, _ => []

/-- Phase 1, encode_poll against a dumper: primitives have no children; a
dirty owned pointer first polls its child, then writes the child's blob with
save_blob and records the returned offset (modelled from the spec, section
4.8: a dirty child is serialized recursively, its own children first, then
save_blob for itself, and the new offset is remembered in the parent's
state; pinned by test trypile_alloc); an array polls its elements in index
order, threading the dumper through (impls/array.rs lines 103-108). -/
def encodePoll : EncVal → DumperState → DumperState × EncState
  | .u8 _, d => (d, .unit)
  | .unitV, d => (d, .unit)
  | .ownedPtr c, d =>
    let rc := encodePoll c d
    let rs := save_blob rc.1 (encodeBlob c rc.2)
    (rs.1, .savedAt rs.2)
  | .arr3 a b c, d =>
    let ra := encodePoll a d
    let rb := encodePoll b ra.1
    let rc := encodePoll c rb.1
    (rc.1, .arr3St ra.2 rb.2 rc.2)

/-- TryPileMut::encode_dirty (pile/mod.rs lines 691-705) over a pile of the
given length: run encode_poll on an empty buffer, then encode_value saves
the value's own blob; returns the final buffer and the tip's offset. -/
def encodeDirtyFull (v : EncVal) (pileLen : Nat) : List Byte × Nat :=
  let r := encodePoll v ⟨pileLen, []⟩
  let rs := save_blob r.1 (encodeBlob v r.2)
  (rs.1.buf, rs.2)

/-- The byte buffer returned by encode_dirty. -/
def encode_dirty (v : EncVal) (pileLen : Nat) : List Byte :=
  (encodeDirtyFull v pileLen).1

/-! ## Heights (proofmarshal-collections/src/tree/height.rs) -/

/-- The height of a perfect binary tree, wrapping a u8. -/
structure Height where
  val : Nat
deriving DecidableEq

/-- Height::MAX. -/
def Height.MAX : Nat := 63

/-- The error of the checked Height and NonZeroHeight constructors. -/
structure TryFromIntError where
deriving DecidableEq

/-- Height::new from height.rs lines 25-31: Ok exactly when n <= 63. -/
def Height.new (n : Nat) : Except TryFromIntError Height :=
  if n ≤ Height.MAX then .ok ⟨n⟩ else .error ⟨⟩

/-- The height of an inner node, wrapping a NonZeroU8 (val is its get()). -/
structure NonZeroHeight where
  val : Nat
deriving DecidableEq

/-- NonZeroHeight::new from height.rs lines 133-139: Ok exactly when the
non-zero byte is <= 63. -/
def NonZeroHeight.new (n : Nat) : Except TryFromIntError NonZeroHeight :=
  if n ≤ Height.MAX then .ok ⟨n⟩ else .error ⟨⟩

/-- The error of ValidateBlob for Height and NonZeroHeight. -/
structure ValidateHeightError where
deriving DecidableEq

/-- ValidateBlob for Height (height.rs lines 73-88): the byte must be at
most 63. The nil case mirrors blob[0] on the 1-byte blob and cannot be
reached through get_blob_impl. -/
def Height.validateBlob : List Byte → Except ValidateHeightError Height
  | b :: _ => if b ≤ Height.MAX then .ok ⟨b⟩ else .error ⟨⟩
  | [] => .error ⟨⟩

/-- ValidateBlob for NonZeroHeight (height.rs lines 99-114): the byte must
be strictly positive and at most 63. -/
def NonZeroHeight.validateBlob : List Byte → Except ValidateHeightError NonZeroHeight
  | b :: _ => if 0 < b ∧ b ≤ Height.MAX then .ok ⟨b⟩ else .error ⟨⟩
  | [] => .error ⟨⟩

/-- The observable outcomes of Height::try_increment: Some, None, or the
panic of the assert and unwraps (unreachable for heights in range). -/
inductive TryIncrementResult where
  | success (n : NonZeroHeight)
  | atMax
  | panics
deriving DecidableEq

/-- Height::try_increment from height.rs lines 50-58: below MAX, wrap
val + 1 as a NonZeroHeight (the unwraps cannot fail there); at MAX return
None; above MAX the assert self.0 == MAX panics. -/
def Height.try_increment (h : Height) : TryIncrementResult :=
  if h.val < Height.MAX then
    match NonZeroHeight.new (h.val + 1) with
    | .ok m => .success m
    | .error _ => .panics
  else if h.val = Height.MAX then .atMax
  else .panics

/-- NonZeroHeight::decrement from height.rs lines 146-150:
Height::new(self.0.get().checked_sub(1).unwrap()).unwrap(). A none result
models the panics of the two unwraps (val = 0 is impossible for a
NonZeroU8; val - 1 > 63 is impossible for a NonZeroHeight in range). -/
def NonZeroHeight.decrement (n : NonZeroHeight) : Option Height :=
  match n.val with
  | 0 => none
  | m + 1 => (Height.new m).toOption

/-! ## Copy-on-write mutable access (pile/mod.rs try_get_mut_impl) -/

/-- The raw field of an OffsetMut pointer: either a persistent offset into
the pile, or a non-null pointer to a dirty heap node (modelled as an index
into the arena of heap nodes). The low-bit machine encoding is irrelevant
to try_get_mut_impl, which only discriminates between the two cases
(TryCoerce succeeds exactly on the persistent case). -/
inductive OffsetMutRaw where
  | offset (o : Nat)
  | heapPtr (a : Nat)
deriving DecidableEq

/-- A ValidPtr in a mutable pile zone: the raw OffsetMut and the pointee
metadata (type-specific, preserved by all the operations modelled here). -/
structure ValidPtrM (μ : Type) where
  raw : OffsetMutRaw
  metadata : μ

/-- The state touched by try_get_mut_impl: the pile bytes and the heap arena
of dirty nodes. A heap value is stored decoded; alloc appends to the arena
and hands back the fresh index. -/
structure PileMutState (V : Type) where
  pile : List Byte
  heap : List V

/-- try_get_mut_impl from pile/mod.rs lines 570-617. T is modelled by its
layout function on metadata and its blob validation (the composition
get_blob_impl followed by validate is try_get_impl). The dirty branch (the
coercion to the persistent pile fails) returns a mutable reference to the
heap node unchanged. The persistent branch loads and validates the pointed-to
value, allocates a fresh heap node holding the copy, replaces the pointer's
raw field with the new heap pointer while keeping the metadata (the source
asserts metadata equality), and returns a reference to the fresh node. The
result carries the new state, the updated pointer, and the arena index the
returned mutable reference targets. -/
def try_get_mut_impl (layoutOf : μ → Option BlobLayout) (validate : List Byte → Except ε V)
    (st : PileMutState V) (ptr : ValidPtrM μ) :
    Except ErrorKind (PileMutState V × ValidPtrM μ × Nat) :=
  match ptr.raw with
  | .heapPtr a => .ok (st, ptr, a)
  | .offset o =>
    match get_blob_impl st.pile o (layoutOf ptr.metadata) with
    | .error e => .error e
    | .ok bytes =>
      match validate bytes with
      | .error _ => .error .value
      | .ok v =>
        let a := st.heap.length
        .ok (⟨st.pile, st.heap ++ [v]⟩, ⟨.heapPtr a, ptr.metadata⟩, a)

/-! ## Theorems -/

/-- C1: for every pile and fat pointer, when the metadata yields a layout of
size s, get_blob_impl returns Ok with the byte slice pile[o, o + s) exactly
when o + s <= pile.len() and an Offset-kind error otherwise; a Metadata-kind
error is produced exactly when the metadata yields no layout, taking
precedence over any bounds check. -/
theorem get_blob_impl_range_check (pile : List Byte) (o s : Nat) :
    (get_blob_impl pile o (some ⟨s⟩) =
      if o + s ≤ pile.length then .ok ((pile.drop o).take s) else .error .offset) ∧
    get_blob_impl pile o none = .error .metadata := by
  refine ⟨?_, rfl⟩
  unfold get_blob_impl sliceGet
  by_cases hle : o + s ≤ pile.length
  · simp [hle, Nat.le_add_right]
  · simp [hle]

/-- C2: try_get_tip validates the blob at offset
slice.len().saturating_sub(size_of T), that is, the last size bytes of the
pile when they fit and an Offset error otherwise; in particular the empty
pile yields Ok for the zero-sized unit type and an Offset error for u8. -/
theorem try_get_tip_tail_blob (sch : BlobSchema ε α) (pile : List Byte) :
    (∀ a, sch.size ≤ pile.length →
      sch.validate (pile.drop (pile.length - sch.size)) = .ok a →
      try_get_tip sch pile = .ok a) ∧
    (∀ e, sch.size ≤ pile.length →
      sch.validate (pile.drop (pile.length - sch.size)) = .error e →
      try_get_tip sch pile = .error .value) ∧
    (pile.length < sch.size → try_get_tip sch pile = .error .offset) ∧
    try_get_tip unitSchema [] = .ok () ∧
    try_get_tip u8Schema [] = .error .offset := by
  have hblob : sch.size ≤ pile.length →
      get_blob_impl pile (pile.length - sch.size) (some ⟨sch.size⟩) =
        .ok (pile.drop (pile.length - sch.size)) := by
    intro hle
    have hcond : pile.length - sch.size ≤ pile.length - sch.size + sch.size ∧
        pile.length - sch.size + sch.size ≤ pile.length := by
      omega
    have htake : ((pile.drop (pile.length - sch.size)).take
        (pile.length - sch.size + sch.size - (pile.length - sch.size))) =
        pile.drop (pile.length - sch.size) := by
      apply List.take_of_length_le
      simp
      omega
    simp [get_blob_impl, sliceGet, hcond, htake]
    omega
  refine ⟨?_, ?_, ?_, rfl, rfl⟩
  · intro a hle hv
    simp [try_get_tip, hblob hle, hv]
  · intro e hle hv
    simp [try_get_tip, hblob hle, hv]
  · intro hlt
    have hz : pile.length - sch.size = 0 := by omega
    have hcond : ¬ sch.size ≤ pile.length := by omega
    simp [try_get_tip, get_blob_impl, sliceGet, hz, hcond]

/-- Witness for try_get_tip_tail_blob: the tip of the pile 0x12 0x34 read as
u8 is the last byte 0x34, and the empty pile read as u8 is an Offset error. -/
theorem try_get_tip_tail_blob_witness :
    try_get_tip u8Schema [18, 52] = .ok 52 ∧ try_get_tip u8Schema [] = .error .offset := by
  refine ⟨?_, (try_get_tip_tail_blob u8Schema []).2.2.2.2⟩
  exact (try_get_tip_tail_blob u8Schema [18, 52]).1 52 (by decide) (by rfl)

/-- C7: a one-byte bool blob validates exactly when the byte is 0 or 1 (the
decoded value being the byte as a truth value) and yields ValidateBoolError
otherwise; reading the tip of the pile 0x02 as bool is a Value-kind error
while the pile 0x01 yields true. -/
theorem bool_blob_validation (b : Byte) (_hb : b < 256) :
    ((∃ v, bool_validate [b] = .ok v) ↔ (b = 0 ∨ b = 1)) ∧
    (¬ (b = 0 ∨ b = 1) → bool_validate [b] = .error ⟨⟩) ∧
    (bool_validate [1] = .ok true ∧ bool_validate [0] = .ok false) ∧
    try_get_tip boolSchema [2] = .error .value ∧
    try_get_tip boolSchema [1] = .ok true := by
  refine ⟨?_, ?_, ⟨rfl, rfl⟩, rfl, rfl⟩
  · constructor
    · rintro ⟨v, hv⟩
      by_contra hcon
      simp [bool_validate, hcon] at hv
    · intro hcases
      exact ⟨b = 1, by simp [bool_validate, hcases]⟩
  · intro hcon
    simp [bool_validate, hcon]

/-- Witness for bool_blob_validation at the byte 2: not a valid bool, and
the concrete tip reads. -/
theorem bool_blob_validation_witness :
    bool_validate [2] = .error ⟨⟩ ∧ try_get_tip boolSchema [2] = .error .value := by
  have h := bool_blob_validation 2 (by decide)
  exact ⟨h.2.1 (by decide), h.2.2.2.1⟩

/-- C8: Height::new accepts exactly the u8 values up to 63; one-byte Height
blob validation accepts exactly the bytes 0..=63 and NonZeroHeight blob
validation exactly 1..=63, all other bytes failing with
ValidateHeightError. -/
theorem height_constructor_and_blob_validation (n b : Nat) (hn : n < 256) (hb : b < 256) :
    ((∃ h, Height.new n = .ok h) ↔ n ≤ 63) ∧
    (63 < n → Height.new n = .error ⟨⟩) ∧
    ((∃ h, Height.validateBlob [b] = .ok h) ↔ b ≤ 63) ∧
    (63 < b → Height.validateBlob [b] = .error ⟨⟩) ∧
    ((∃ h, NonZeroHeight.validateBlob [b] = .ok h) ↔ (1 ≤ b ∧ b ≤ 63)) ∧
    ((b = 0 ∨ 63 < b) → NonZeroHeight.validateBlob [b] = .error ⟨⟩) := by
  refine ⟨⟨?_, ?_⟩, ?_, ⟨?_, ?_⟩, ?_, ⟨?_, ?_⟩, ?_⟩
  · rintro ⟨h, hh⟩
    by_contra hcon
    simp [Height.new, Height.MAX, hcon] at hh
  · intro hle
    exact ⟨⟨n⟩, by simp [Height.new, Height.MAX, hle]⟩
  · intro hgt
    have hcon : ¬ n ≤ Height.MAX := by simp [Height.MAX]; omega
    simp [Height.new, hcon]
  · rintro ⟨h, hh⟩
    by_contra hcon
    simp [Height.validateBlob, Height.MAX, hcon] at hh
  · intro hle
    exact ⟨⟨b⟩, by simp [Height.validateBlob, Height.MAX, hle]⟩
  · intro hgt
    have hcon : ¬ b ≤ Height.MAX := by simp [Height.MAX]; omega
    simp [Height.validateBlob, hcon]
  · rintro ⟨h, hh⟩
    by_contra hcon
    have hc : ¬ (0 < b ∧ b ≤ Height.MAX) := by simp [Height.MAX]; omega
    simp [NonZeroHeight.validateBlob, hc] at hh
  · rintro ⟨h1, h63⟩
    have hcond : 0 < b ∧ b ≤ Height.MAX := by simp [Height.MAX]; omega
    exact ⟨⟨b⟩, by simp [NonZeroHeight.validateBlob, hcond]⟩
  · intro hcases
    have hcon : ¬ (0 < b ∧ b ≤ Height.MAX) := by simp [Height.MAX]; omega
    simp [NonZeroHeight.validateBlob, hcon]

/-- Witness for height_constructor_and_blob_validation at the boundary 63
and 64: 63 is accepted everywhere, 64 rejected everywhere. -/
theorem height_constructor_and_blob_validation_witness :
    Height.new 64 = .error ⟨⟩ ∧ (∃ h, Height.new 63 = .ok h) ∧
    Height.validateBlob [64] = .error ⟨⟩ ∧
    NonZeroHeight.validateBlob [64] = .error ⟨⟩ ∧
    NonZeroHeight.validateBlob [0] = .error ⟨⟩ := by
  have h63 := height_constructor_and_blob_validation 63 64 (by decide) (by decide)
  have h64 := height_constructor_and_blob_validation 64 64 (by decide) (by decide)
  have h0 := height_constructor_and_blob_validation 64 0 (by decide) (by decide)
  exact ⟨h64.2.1 (by decide), h63.1.mpr (by decide), h64.2.2.2.1 (by decide),
    h64.2.2.2.2.2 (Or.inr (by decide)), h0.2.2.2.2.2 (Or.inl rfl)⟩

/-- C10: for heights in the valid range, try_increment returns the
NonZeroHeight of value h + 1 exactly below 63 and None exactly at 63, and
decrement subtracts one, so decrement after try_increment is the identity
on heights 0..=62. -/
theorem height_increment_decrement (h : Height) (n : NonZeroHeight)
    (hh : h.val ≤ 63) (hn1 : 1 ≤ n.val) (hn : n.val ≤ 63) :
    (h.val < 63 → Height.try_increment h = .success ⟨h.val + 1⟩) ∧
    (h.val = 63 → Height.try_increment h = .atMax) ∧
    NonZeroHeight.decrement n = some ⟨n.val - 1⟩ ∧
    (h.val < 63 → NonZeroHeight.decrement ⟨h.val + 1⟩ = some h) := by
  have hdec : ∀ m : Nat, m ≤ 63 → NonZeroHeight.decrement ⟨m + 1⟩ = some ⟨m⟩ := by
    intro m hm
    simp [NonZeroHeight.decrement, Height.new, Height.MAX, hm, Except.toOption]
  refine ⟨?_, ?_, ?_, ?_⟩
  · intro hlt
    have hok : NonZeroHeight.new (h.val + 1) = .ok ⟨h.val + 1⟩ := by
      simp [NonZeroHeight.new, Height.MAX]
      omega
    simp [Height.try_increment, Height.MAX, hlt, hok]
  · intro heq
    simp [Height.try_increment, Height.MAX, heq]
  · obtain ⟨nv⟩ := n
    simp only at hn1 hn
    obtain ⟨m, rfl⟩ : ∃ m, nv = m + 1 := ⟨nv - 1, by omega⟩
    simpa using hdec m (by omega)
  · intro hlt
    rw [hdec h.val (by omega)]

/-- Shifting the element chunk of an array blob across one dropped element:
chunk k of the bytes after the first element is chunk k + 1 of the whole. -/
theorem elem_chunk_shift (s : Nat) (bytes : List Byte) (k : Nat) :
    ((bytes.drop s).drop (k * s)).take s = (bytes.drop ((k + 1) * s)).take s := by
  rw [List.drop_drop]
  have h : s + k * s = (k + 1) * s := by ring
  rw [h]

/-- The element loop validates successfully exactly when every remaining
element chunk validates. -/
theorem validateArrayAux_ok_iff (sch : BlobSchema ε α) :
    ∀ (n i : Nat) (bytes : List Byte),
      (validateArrayAux sch n i bytes = .ok ()) ↔
        ∀ k, k < n → ∃ a, sch.validate ((bytes.drop (k * sch.size)).take sch.size) = .ok a := by
  intro n
  induction n with
  | zero =>
    intro i bytes
    simp [validateArrayAux]
  | succ m ih =>
    intro i bytes
    constructor
    · intro hok k hk
      unfold validateArrayAux at hok
      cases hv : sch.validate (bytes.take sch.size) with
      | error e => rw [hv] at hok; exact absurd hok (by simp)
      | ok a =>
        rw [hv] at hok
        match k with
        | 0 => exact ⟨a, by simpa using hv⟩
        | k' + 1 =>
          have := (ih (i + 1) (bytes.drop sch.size)).mp hok k' (by omega)
          rwa [elem_chunk_shift] at this
    · intro hall
      obtain ⟨a0, ha0⟩ := hall 0 (by omega)
      simp at ha0
      unfold validateArrayAux
      rw [ha0]
      apply (ih (i + 1) (bytes.drop sch.size)).mpr
      intro k hk
      rw [elem_chunk_shift]
      exact hall (k + 1) (by omega)

/-- The element loop fails at the first invalid element, tagging the error
with the running index plus that element's position. -/
theorem validateArrayAux_first_error (sch : BlobSchema ε α) :
    ∀ (n k i : Nat) (bytes : List Byte) (e : ε),
      k < n →
      sch.validate ((bytes.drop (k * sch.size)).take sch.size) = .error e →
      (∀ j, j < k → ∃ a, sch.validate ((bytes.drop (j * sch.size)).take sch.size) = .ok a) →
      validateArrayAux sch n i bytes = .error ⟨i + k, e⟩ := by
  intro n
  induction n with
  | zero =>
    intro k i bytes e hk
    omega
  | succ m ih =>
    intro k i bytes e hk he hbefore
    match k with
    | 0 =>
      simp at he
      unfold validateArrayAux
      simp [he]
    | k' + 1 =>
      obtain ⟨a0, ha0⟩ := hbefore 0 (by omega)
      simp at ha0
      unfold validateArrayAux
      rw [ha0]
      have hrest : ∀ j, j < k' →
          ∃ a, sch.validate (((bytes.drop sch.size).drop (j * sch.size)).take sch.size) = .ok a := by
        intro j hj
        rw [elem_chunk_shift]
        exact hbefore (j + 1) (by omega)
      have hke : sch.validate (((bytes.drop sch.size).drop (k' * sch.size)).take sch.size) =
          .error e := by
        rw [elem_chunk_shift]
        exact he
      have := ih k' (i + 1) (bytes.drop sch.size) e (by omega) hke hrest
      rw [show i + (k' + 1) = i + 1 + k' from by omega]
      exact this

/-- C3: for a fixed array type and a blob of N * size bytes, validation
succeeds exactly when every element chunk validates, and otherwise fails at
the smallest index whose element is invalid, returning a ValidateArrayError
whose idx field equals that index (validation walks the elements strictly in
index order, so the error is independent of the elements after the first
invalid one). -/
theorem array_blob_validation_first_invalid_index (sch : BlobSchema ε α) (N : Nat)
    (bytes : List Byte) (_hlen : bytes.length = N * sch.size) :
    ((validateArray sch N bytes = .ok ()) ↔
      ∀ i, i < N → ∃ a, sch.validate (elemBytes sch bytes i) = .ok a) ∧
    (∀ i e, i < N →
      sch.validate (elemBytes sch bytes i) = .error e →
      (∀ j, j < i → ∃ a, sch.validate (elemBytes sch bytes j) = .ok a) →
      validateArray sch N bytes = .error ⟨i, e⟩) := by
  constructor
  · simpa [validateArray, elemBytes] using validateArrayAux_ok_iff sch N 0 bytes
  · intro i e hi he hbefore
    have := validateArrayAux_first_error sch N i 0 bytes e hi
      (by simpa [elemBytes] using he)
      (by intro j hj; simpa [elemBytes] using hbefore j hj)
    simpa [validateArray] using this

/-- Witness for array_blob_validation_first_invalid_index on three-element
bool arrays: the blob 1 5 2 has invalid elements at indices 1 and 2 and
fails with idx 1, the smallest; the blob 1 0 1 validates. -/
theorem array_blob_validation_first_invalid_index_witness :
    validateArray boolSchema 3 [1, 5, 2] = .error ⟨1, ⟨⟩⟩ ∧
    validateArray boolSchema 3 [1, 0, 1] = .ok () := by
  have h1 := array_blob_validation_first_invalid_index boolSchema 3 [1, 5, 2] (by decide)
  have h2 := array_blob_validation_first_invalid_index boolSchema 3 [1, 0, 1] (by decide)
  constructor
  · refine h1.2 1 ⟨⟩ (by decide) rfl ?_
    intro j hj
    have hj0 : j = 0 := by omega
    subst hj0
    exact ⟨true, rfl⟩
  · apply h2.1.mpr
    intro i hi
    interval_cases i
    · exact ⟨true, rfl⟩
    · exact ⟨false, rfl⟩
    · exact ⟨true, rfl⟩

/-- Witness for height_increment_decrement at height 62 and non-zero height
63: increment gives 63, decrement gives 62, and they compose to the
identity. -/
theorem height_increment_decrement_witness :
    Height.try_increment ⟨62⟩ = .success ⟨63⟩ ∧
    NonZeroHeight.decrement ⟨63⟩ = some ⟨62⟩ ∧
    NonZeroHeight.decrement ⟨62 + 1⟩ = some ⟨62⟩ := by
  have h := height_increment_decrement ⟨62⟩ ⟨63⟩ (by decide) (by decide) (by decide)
  exact ⟨h.1 (by decide), h.2.2.1, h.2.2.2 (by decide)⟩

/-- Running a sequence of saves appends the concatenation of all the blobs
to the buffer and leaves the pile length unchanged. -/
theorem runSaves_final_state (bs : List (List Byte)) :
    ∀ st : DumperState, (runSaves st bs).1 = ⟨st.pileLen, st.buf ++ bs.flatten⟩ := by
  induction bs with
  | nil => intro st; simp [runSaves]
  | cons b bs ih =>
    intro st
    simp [runSaves, save_blob, ih ⟨st.pileLen, st.buf ++ b⟩]

/-- Every offset handed out by a sequence of saves is at least the write
position the dumper started at. -/
theorem runSaves_offsets_lower_bound (bs : List (List Byte)) :
    ∀ (st : DumperState) (o : Nat), o ∈ (runSaves st bs).2 →
      st.pileLen + st.buf.length ≤ o := by
  induction bs with
  | nil => intro st o ho; simp [runSaves] at ho
  | cons b bs ih =>
    intro st o ho
    simp only [runSaves, save_blob, List.mem_cons] at ho
    rcases ho with rfl | ho
    · exact Nat.le_refl _
    · have := ih ⟨st.pileLen, st.buf ++ b⟩ o ho
      simp at this
      omega

/-- C4 (amended): each save_blob call returns the offset pile.len() +
buf.len() computed before the blob is appended (the i-th offset of a
sequence of saves exceeds the starting position by the total length of the
earlier blobs), the buffer grows by exactly the requested bytes, and the
offsets are non-decreasing — strictly increasing whenever every blob saved
is non-empty, as is the case for the one-byte child blobs written during
encode_poll of an array of dirty u8 pointers, whose parent is therefore
saved at a strictly larger offset. -/
theorem save_blob_offsets (st : DumperState) (bs : List (List Byte)) :
    ((runSaves st bs).1 = ⟨st.pileLen, st.buf ++ bs.flatten⟩) ∧
    (∀ i, i < bs.length → (runSaves st bs).2.getD i 0 =
      st.pileLen + st.buf.length + (((bs.take i).map List.length).sum)) ∧
    List.Pairwise (fun a b => a ≤ b) (runSaves st bs).2 ∧
    ((∀ b ∈ bs, b ≠ []) → List.Pairwise (fun a b => a < b) (runSaves st bs).2) := by
  refine ⟨runSaves_final_state bs st, ?_, ?_, ?_⟩
  · induction bs generalizing st with
    | nil => intro i hi; simp at hi
    | cons b bs ih =>
      intro i hi
      match i with
      | 0 => simp [runSaves, save_blob]
      | i' + 1 =>
        have := ih ⟨st.pileLen, st.buf ++ b⟩ i' (by simpa using hi)
        simp only [runSaves, save_blob, List.getD_cons_succ] at this ⊢
        simp at this
        simp [this]
        omega
  · induction bs generalizing st with
    | nil => simp [runSaves]
    | cons b bs ih =>
      simp only [runSaves, save_blob, List.pairwise_cons]
      refine ⟨?_, ih ⟨st.pileLen, st.buf ++ b⟩⟩
      intro o ho
      have := runSaves_offsets_lower_bound bs ⟨st.pileLen, st.buf ++ b⟩ o ho
      simp at this
      omega
  · induction bs generalizing st with
    | nil => intro hne; simp [runSaves]
    | cons b bs ih =>
      intro hne
      simp only [runSaves, save_blob, List.pairwise_cons]
      refine ⟨?_, ih ⟨st.pileLen, st.buf ++ b⟩ (fun x hx => hne x (by simp [hx]))⟩
      intro o ho
      have hlb := runSaves_offsets_lower_bound bs ⟨st.pileLen, st.buf ++ b⟩ o ho
      simp at hlb
      have hb : b.length ≠ 0 := by
        intro h0
        exact hne b (by simp) (List.length_eq_zero.mp h0)
      omega

/-- Witness for save_blob_offsets: saving the three one-byte blobs of the
trypile_alloc array test on an empty pile yields the strictly increasing
offsets 0, 1, 2, and the third offset equals the two bytes written before
it. -/
theorem save_blob_offsets_witness :
    (runSaves ⟨0, []⟩ [[1], [2], [3]]).2.getD 2 0 = 2 ∧
    List.Pairwise (fun a b => a < b) ((runSaves ⟨0, []⟩ [[1], [2], [3]]).2) := by
  have h := save_blob_offsets ⟨0, []⟩ [[1], [2], [3]]
  exact ⟨(h.2.1 2 (by decide)).trans (by decide), h.2.2.2 (by decide)⟩

/-- C4 counterexample: save_blob offsets are not strictly increasing in
general — two successive zero-size saves return the same offset, and the
zero-size child blob of a dirty pointer to a unit value is saved at the same
offset 0 at which the parent pointer blob itself is then saved. -/
theorem save_blob_offsets_can_tie :
    (runSaves ⟨0, []⟩ [[], []]).2 = [0, 0] ∧
    ¬ List.Pairwise (fun a b => a < b) ((runSaves ⟨0, []⟩ [[], []]).2) ∧
    (encodePoll (EncVal.ownedPtr .unitV) ⟨0, []⟩).2 = .savedAt 0 ∧
    (encodeDirtyFull (.ownedPtr .unitV) 0).2 = 0 := by
  refine ⟨rfl, ?_, rfl, rfl⟩
  intro hp
  have : (0 : Nat) < 0 := by
    have h01 : (runSaves ⟨0, []⟩ [[], []]).2 = [0, 0] := rfl
    rw [h01] at hp
    exact (List.pairwise_cons.mp hp).1 0 (by simp)
  omega

/-- Little-endian decoding inverts little-endian encoding up to the width. -/
theorem decodeLE_leBytes (w : Nat) : ∀ v, decodeLE (leBytes w v) = v % 256 ^ w := by
  induction w with
  | zero => intro v; simp [leBytes, decodeLE, Nat.mod_one]
  | succ m ih =>
    intro v
    have h1 : decodeLE (leBytes (m + 1) v) =
        decodeLE (leBytes m (v / 256)) * 256 + v % 256 := rfl
    rw [h1, ih, pow_succ, mul_comm (256 ^ m) 256, Nat.mod_mul]
    ring

/-- C5 (amended): the stored 8-byte little-endian value of a bare persistent
offset is (offset << 1) | 1 = 2 * offset + 1, whose low discriminator bit
is 1; the dirty heap-pointer form, which has low bit 0, therefore never
appears in persisted output, where every pointer field is written through
offsetBytes; the serialized pointer to a blob saved at offset 0 stores the
value 1. -/
theorem offset_stored_value (o : Nat) (ho : o < 2 ^ 62) :
    decodeLE (offsetBytes o) = 2 * o + 1 ∧
    decodeLE (offsetBytes o) % 2 = 1 ∧
    decodeLE ((encode_dirty (.ownedPtr (.u8 42)) 0).drop 1) = 2 * 0 + 1 := by
  have h62 : (2 : Nat) ^ 62 = 4611686018427387904 := by norm_num
  have h88 : (256 : Nat) ^ 8 = 18446744073709551616 := by norm_num
  have h1 : decodeLE (offsetBytes o) = 2 * o + 1 := by
    rw [offsetBytes, decodeLE_leBytes, offsetStored]
    apply Nat.mod_eq_of_lt
    omega
  exact ⟨h1, by rw [h1]; omega, by decide⟩

/-- Witness for offset_stored_value at offset 3: stored value 7, an odd
number, and the concrete stored value 1 for the offset-0 child of the
trypile_alloc single-byte test. -/
theorem offset_stored_value_witness :
    decodeLE (offsetBytes 3) = 7 ∧
    decodeLE ((encode_dirty (.ownedPtr (.u8 42)) 0).drop 1) = 1 := by
  have h := offset_stored_value 3 (by norm_num)
  exact ⟨h.1.trans (by norm_num), h.2.2.trans (by norm_num)⟩

/-- C5 counterexample: the pipeline output pinned by pile::test::trypile_alloc
stores the pointer to the child blob saved at offset 0 as the 64-bit value
1, not as offset << 1 = 0 as the claim and the literal formula of spec
section 6 state. -/
theorem offset_zero_stored_as_one :
    encode_dirty (.ownedPtr (.u8 42)) 0 = [42, 1, 0, 0, 0, 0, 0, 0, 0] ∧
    decodeLE ((encode_dirty (.ownedPtr (.u8 42)) 0).drop 1) = 1 ∧
    offsetStoredSpecFormula 0 = 0 ∧ (1 : Nat) ≠ 0 := by decide

/-- C6: encode_dirty on an empty mutable pile of a fixed array of three
individually allocated dirty u8 pointers with values 1, 2, 3 emits exactly
the three data bytes 1, 2, 3 first (the children saved in declaration order
at offsets 0, 1, 2) followed by the parent's three 8-byte little-endian
stored pointer values 1, 3, 5 in declaration order — the bytes asserted by
pile::test::trypile_alloc. -/
theorem encode_dirty_three_u8_pointers :
    encode_dirty (.arr3 (.ownedPtr (.u8 1)) (.ownedPtr (.u8 2)) (.ownedPtr (.u8 3))) 0 =
      [1, 2, 3,
       1, 0, 0, 0, 0, 0, 0, 0,
       3, 0, 0, 0, 0, 0, 0, 0,
       5, 0, 0, 0, 0, 0, 0, 0] ∧
    offsetStored 0 = 1 ∧ offsetStored 1 = 3 ∧ offsetStored 2 = 5 := by decide

/-- C9: try_get_mut on a mutable pile: a pointer that discriminates as
heap-dirty yields a mutable reference to its heap node with neither the
state nor the pointer modified; a pointer that discriminates as a persistent
offset has its target blob fetched and validated, the validated copy is
placed in a freshly allocated heap node, the pointer's raw field is replaced
by the new heap pointer while its metadata is unchanged, and the returned
mutable reference targets the fresh node. -/
theorem try_get_mut_copy_on_write (layoutOf : μ → Option BlobLayout)
    (validate : List Byte → Except ε V) (st : PileMutState V) (ptr : ValidPtrM μ) :
    (∀ a, ptr.raw = .heapPtr a →
      try_get_mut_impl layoutOf validate st ptr = .ok (st, ptr, a)) ∧
    (∀ o l bytes v, ptr.raw = .offset o →
      layoutOf ptr.metadata = some l →
      sliceGet st.pile o (o + l.size) = some bytes →
      validate bytes = .ok v →
      try_get_mut_impl layoutOf validate st ptr =
        .ok (⟨st.pile, st.heap ++ [v]⟩, ⟨.heapPtr st.heap.length, ptr.metadata⟩,
          st.heap.length)) := by
  constructor
  · intro a ha
    simp [try_get_mut_impl, ha]
  · intro o l bytes v ho hl hs hv
    simp [try_get_mut_impl, ho, get_blob_impl, hl, hs, hv]

/-- Witness for try_get_mut_copy_on_write: over the one-byte pile 42 with an
empty arena, a persistent u8 pointer at offset 0 is loaded, copied into the
fresh arena slot 0, and the pointer becomes a heap pointer to that slot; a
dirty pointer into an arena holding the byte 7 is returned unchanged. -/
theorem try_get_mut_copy_on_write_witness :
    try_get_mut_impl (fun _ : Unit => some ⟨1⟩) u8Schema.validate
      ⟨[42], ([] : List Byte)⟩ ⟨.offset 0, ()⟩ =
      .ok (⟨[42], [42]⟩, ⟨.heapPtr 0, ()⟩, 0) ∧
    try_get_mut_impl (fun _ : Unit => some ⟨1⟩) u8Schema.validate
      ⟨[42], [(7 : Byte)]⟩ ⟨.heapPtr 0, ()⟩ =
      .ok (⟨[42], [7]⟩, ⟨.heapPtr 0, ()⟩, 0) := by
  have h1 := try_get_mut_copy_on_write (fun _ : Unit => some ⟨1⟩) u8Schema.validate
    ⟨[42], ([] : List Byte)⟩ ⟨.offset 0, ()⟩
  have h2 := try_get_mut_copy_on_write (fun _ : Unit => some ⟨1⟩) u8Schema.validate
    ⟨[42], [(7 : Byte)]⟩ ⟨.heapPtr 0, ()⟩
  exact ⟨h1.2 0 ⟨1⟩ [42] 42 rfl rfl (by decide) rfl, h2.1 0 rfl⟩

end Hoard
